import Mathlib

/-!
Verification of the streaming GUI-to-TUI conversion pipeline
(`src/start.py`) against its natural-language specification.

The development shallowly embeds the two core pieces of the source:

* the pixel classifier `get_ascii_char_and_color` (lines 106-126), and
* the streaming pump loop inside `run_xorg_app_in_xephyr` (lines 80-95),
  together with the frame decoding step
  `np.frombuffer(raw_frame, dtype=np.uint8).reshape(h, w, 3)`.

Python's float arithmetic over the luminance expression is modelled
twice: `intensity`/`glyphIndex` read the decimal literals as exact
rationals (the mathematical reading the spec uses), while
`intensityFP`/`glyphIndexFP` model the computation bit-exactly as
IEEE-754 binary64 (round to nearest, ties to even), which is what
CPython/numpy actually perform.  The two models disagree on a handful of
the 16.7 million uint8 triples; the divergence at (255, 255, 255) is
settled below.
-/

namespace Xorgontui

/-! ## Pixel classifier, exact-arithmetic model (lines 106-126) -/

/-- The ten-character luminance ramp `" .:-=+*%@#"` from line 112 of
`src/start.py`, sparsest to densest. -/
def ascii_chars : List Char := [' ', '.', ':', '-', '=', '+', '*', '%', '@', '#']

/-- Exact-arithmetic model of line 113:
`intensity = 0.2126 * pixel[0] + 0.7152 * pixel[1] + 0.0722 * pixel[2]`,
with the decimal literals read as exact rationals. -/
def intensity (r g b : ℕ) : ℚ :=
  0.2126 * (r : ℚ) + 0.7152 * (g : ℚ) + 0.0722 * (b : ℚ)

/-- The quantization step of line 114 as a function of the luminance:
`int((L / 255) * (len(ascii_chars) - 1))`.  The argument is nonnegative
on the domain of interest, so Python's truncating `int()` is the floor. -/
def lumToGlyph (L : ℚ) : ℤ :=
  (L / 255 * ((ascii_chars.length : ℚ) - 1)).floor

/-- Exact-arithmetic model of the full glyph-index computation of
lines 113-114. -/
def glyphIndex (r g b : ℕ) : ℕ :=
  (lumToGlyph (intensity r g b)).toNat

/-- Model of lines 117-124: the 3-bit ANSI color class, one bit per
channel, set by strict comparison `> 128`. -/
def color_of (r g b : ℕ) : ℕ :=
  (if 128 < r then 1 else 0) ||| (if 128 < g then 2 else 0) ||| (if 128 < b then 4 else 0)

/-- Model of `get_ascii_char_and_color` (lines 106-126): maps an RGB
triple to the ramp character at `glyphIndex` and the color class.
Python string indexing raises on an out-of-range index, which
`List.get?` models as `none`. -/
def get_ascii_char_and_color (p : ℕ × ℕ × ℕ) : Option (Char × ℕ) :=
  (ascii_chars.get? (glyphIndex p.1 p.2.1 p.2.2)).map
    (fun ch => (ch, color_of p.1 p.2.1 p.2.2))

/-! ## Pixel classifier, IEEE-754 binary64 model

CPython and numpy evaluate line 113 in binary64.  A nonnegative finite
binary64 value is represented here by a pair `(n, d) : ℕ × ℕ` standing
for the exact rational `n / d`; every operation rounds its exact
rational result to 53 significant bits, to nearest, ties to even.  All
values arising in the classifier lie well inside the normal range, so
neither subnormals nor overflow need to be modelled. -/

/-- Fuel-driven bit length: `bitlen fuel n` is the number of binary
digits of `n` (0 for 0) whenever `fuel ≥ n`. -/
def bitlen : ℕ → ℕ → ℕ
  | 0, _ => 0
  | fuel + 1, n => if n = 0 then 0 else bitlen fuel (n / 2) + 1

/-- Decides `a * 2^e ≤ b` for an integer (possibly negative) `e`. -/
def le2 (a : ℕ) (e : ℤ) (b : ℕ) : Bool :=
  if 0 ≤ e then decide (a * 2 ^ e.toNat ≤ b) else decide (a ≤ b * 2 ^ (-e).toNat)

/-- The value `ilog2 n d` is `⌊log₂ (n / d)⌋` for positive `n`, `d`: the unique
`e` with `d * 2^e ≤ n < d * 2^(e+1)`.  Fuel 160 covers every operand
below `2^160`, far beyond all values arising in this development. -/
def ilog2 (n d : ℕ) : ℤ :=
  let c : ℤ := (bitlen 160 n : ℤ) - (bitlen 160 d : ℤ)
  if ¬ le2 d c n then c - 1 else if le2 d (c + 1) n then c + 1 else c

/-- Rounds the exact rational `n / d` to 53 significant bits, to
nearest, ties to even: the binary64 rounding of a positive real in the
normal range.  Returns the result as a reduced dyadic pair. -/
def fpRound (n d : ℕ) : ℕ × ℕ :=
  if n = 0 ∨ d = 0 then (0, 1) else
  let e := ilog2 n d
  let s := 52 - e
  let N := if 0 ≤ s then n * 2 ^ s.toNat else n
  let D := if 0 ≤ s then d else d * 2 ^ (-s).toNat
  let q := N / D
  let m := if D < 2 * (N % D) then q + 1
           else if 2 * (N % D) < D then q
           else if q % 2 = 0 then q else q + 1
  if 0 ≤ e - 52 then (m * 2 ^ (e - 52).toNat, 1) else (m, 2 ^ (52 - e).toNat)

/-- Binary64 multiplication of nonnegative values. -/
def fpMul (a b : ℕ × ℕ) : ℕ × ℕ := fpRound (a.1 * b.1) (a.2 * b.2)

/-- Binary64 addition of nonnegative values. -/
def fpAdd (a b : ℕ × ℕ) : ℕ × ℕ := fpRound (a.1 * b.2 + b.1 * a.2) (a.2 * b.2)

/-- Binary64 division of nonnegative values. -/
def fpDiv (a b : ℕ × ℕ) : ℕ × ℕ := fpRound (a.1 * b.2) (a.2 * b.1)

/-- The binary64 value of the literal `0.2126` (correctly rounded by the
Python parser). -/
def c2126 : ℕ × ℕ := fpRound 2126 10000

/-- The binary64 value of the literal `0.7152`. -/
def c7152 : ℕ × ℕ := fpRound 7152 10000

/-- The binary64 value of the literal `0.0722`. -/
def c722 : ℕ × ℕ := fpRound 722 10000

/-- Bit-exact model of line 113 as evaluated in binary64, with Python's
left-associated sum `(0.2126*r + 0.7152*g) + 0.0722*b`. -/
def intensityFP (r g b : ℕ) : ℕ × ℕ :=
  fpAdd (fpAdd (fpMul c2126 (r, 1)) (fpMul c7152 (g, 1))) (fpMul c722 (b, 1))

/-- Bit-exact model of the index expression of line 114 as evaluated in
binary64: `int((intensity / 255) * 9)` with a rounded division, a
rounded multiplication, and a final truncation. -/
def glyphIndexFP (r g b : ℕ) : ℕ :=
  let q := fpMul (fpDiv (intensityFP r g b) (255, 1)) (9, 1)
  q.1 / q.2

/-! ## Frame geometry, decoder, converter (lines 80-95) -/

/-- Frame geometry: `canvas_width`/`canvas_height` of the source; one
pixel is 3 bytes (rgb24). -/
structure Geometry where
  width : ℕ
  height : ℕ
deriving DecidableEq

/-- The product `canvas_width * canvas_height * 3`: the exact chunk size requested
from `ffmpeg.stdout.read` on line 82. -/
def frame_byte_size (g : Geometry) : ℕ := g.width * g.height * 3

/-- Error taxonomy of the pump run.  `malformedFrame` models the
`ValueError` raised by `reshape` on a size mismatch (the spec's
`MalformedFrame`); `indexError` models the `IndexError` Python string
indexing would raise on an out-of-range ramp index (unreachable for
uint8 input). -/
inductive PumpError where
  | malformedFrame
  | indexError
deriving DecidableEq

/-- A classified cell: (glyph character, ANSI color class). -/
abbrev Cell := Char × ℕ

/-- A completed frame: the row-major grid of classified cells. -/
abbrev Frame := List (List Cell)

/-- Splits a list into consecutive chunks of `k` elements (the last
chunk may be shorter); the row-major regrouping that `reshape`
performs on contiguous data. -/
def chunksOf (k : ℕ) (l : List α) : List (List α) :=
  if l.isEmpty ∨ k = 0 then [] else l.take k :: chunksOf k (l.drop k)
termination_by l.length
decreasing_by
  rename_i h
  simp only [not_or, List.isEmpty_iff] at h
  simp only [List.length_drop]
  have : l.length ≠ 0 := fun hl => h.1 (List.length_eq_zero.mp hl)
  omega

/-- Reads three consecutive bytes as one RGB triple (`(0,0,0)` padding
is never exercised on exact-length input). -/
def toPixel (l : List ℕ) : ℕ × ℕ × ℕ := (l.getD 0 0, l.getD 1 0, l.getD 2 0)

/-- Model of line 87,
`np.frombuffer(raw_frame, dtype=np.uint8).reshape(canvas_height, canvas_width, 3)`:
succeeds exactly when the buffer length is `width*height*3`, yielding
the row-major grid of RGB triples; any other length raises (the
`MalformedFrame` of the spec). -/
def decode (g : Geometry) (buf : List ℕ) : Except PumpError (List (List (ℕ × ℕ × ℕ))) :=
  if buf.length = frame_byte_size g then
    Except.ok (chunksOf g.width ((chunksOf 3 buf).map toPixel))
  else
    Except.error PumpError.malformedFrame

/-- One row of the nested loop of lines 88-92: classify each pixel in
order; `none` models the (unreachable) `IndexError` of an out-of-range
ramp index. -/
def convertRow : List (ℕ × ℕ × ℕ) → Option (List Cell)
  | [] => some []
  | p :: ps =>
    (get_ascii_char_and_color p).bind fun c => (convertRow ps).map fun cs => c :: cs

/-- Model of the nested loop of lines 88-92: classify every pixel of
the decoded grid, preserving shape and order. -/
def convert : List (List (ℕ × ℕ × ℕ)) → Option Frame
  | [] => some []
  | row :: rows =>
    (convertRow row).bind fun r => (convert rows).map fun rs => r :: rs

/-- Decode a raw chunk and convert it to a frame of cells; `none` when
either step fails. -/
def decodeConvert (g : Geometry) (buf : List ℕ) : Option Frame :=
  match decode g buf with
  | Except.ok grid => convert grid
  | Except.error _ => none

/-! ## Streaming pump (lines 80-95)

The byte source is modelled as the list of successive return values of
`ffmpeg.stdout.read(frame_byte_size)`; once the list is exhausted the
source is at end-of-stream and every further read returns the empty
chunk.  One loop iteration reads a chunk (`Ev.read`), and on success
classifies it and hands the completed frame to the display sink
(`Ev.deliver`, the `display.refresh()` of line 95). -/

/-- Observable events of one pump run. -/
inductive Ev where
  | read (chunk : List ℕ)
  | deliver (f : Frame)
deriving DecidableEq

/-- Terminal outcome of one pump run. -/
inductive Outcome where
  | drained
  | failed (e : PumpError)
deriving DecidableEq

/-- The body of one loop iteration on a non-empty chunk: decode
(raising `malformedFrame` on any size mismatch) then classify. -/
def step (g : Geometry) (c : List ℕ) : Except PumpError Frame :=
  (decode g c).bind fun grid =>
    (convert grid).elim (Except.error PumpError.indexError) Except.ok

/-- Model of the loop of lines 80-95: read a chunk; an empty read
(`if not raw_frame: break`) ends the run in `drained`; otherwise decode
and classify the chunk, deliver the completed frame to the sink, and
loop.  Any error is fatal to the run. -/
def pump (g : Geometry) : List (List ℕ) → List Ev × Outcome
  | [] => ([Ev.read []], Outcome.drained)
  | c :: rest =>
    if c = [] then ([Ev.read c], Outcome.drained)
    else
      match step g c with
      | Except.error e => ([Ev.read c], Outcome.failed e)
      | Except.ok f =>
        let res := pump g rest
        (Ev.read c :: Ev.deliver f :: res.1, res.2)

/-- Number of `read` events in a slice of the trace. -/
def readsIn : List Ev → ℕ
  | [] => 0
  | Ev.read _ :: evs => readsIn evs + 1
  | Ev.deliver _ :: evs => readsIn evs

/-- Number of `deliver` events in a slice of the trace. -/
def deliveriesIn : List Ev → ℕ
  | [] => 0
  | Ev.read _ :: evs => deliveriesIn evs
  | Ev.deliver _ :: evs => deliveriesIn evs + 1

/-! ## Classifier lemmas -/

/-- The computable `Rat.floor` agrees with the `Int.floor` of the `FloorRing ℚ`
instance. -/
lemma ratFloor_eq_intFloor (q : ℚ) : q.floor = ⌊q⌋ := by
  rw [Rat.floor_def, Rat.floor_def']

lemma ascii_chars_length : ascii_chars.length = 10 := rfl

/-- The exact-arithmetic glyph index collapses to a single natural
division, which lets concrete instances be evaluated. -/
lemma glyphIndex_eq (r g b : ℕ) :
    glyphIndex r g b = 9 * (2126 * r + 7152 * g + 722 * b) / 2550000 := by
  unfold glyphIndex lumToGlyph
  rw [ratFloor_eq_intFloor, Int.floor_toNat]
  have hx : intensity r g b / 255 * ((ascii_chars.length : ℚ) - 1)
      = ((9 * (2126 * r + 7152 * g + 722 * b) : ℕ) : ℚ) / ((2550000 : ℕ) : ℚ) := by
    unfold intensity
    rw [ascii_chars_length]
    rw [show (0.2126 : ℚ) = 2126 / 10000 by norm_num,
        show (0.7152 : ℚ) = 7152 / 10000 by norm_num,
        show (0.0722 : ℚ) = 722 / 10000 by norm_num]
    push_cast
    ring
  rw [hx, Nat.floor_div_eq_div]

lemma glyphIndex_le_nine (r g b : ℕ) (hr : r ≤ 255) (hg : g ≤ 255) (hb : b ≤ 255) :
    glyphIndex r g b ≤ 9 := by
  rw [glyphIndex_eq]
  have h : 9 * (2126 * r + 7152 * g + 722 * b) < 10 * 2550000 := by omega
  have := (Nat.div_lt_iff_lt_mul (by norm_num : (0:ℕ) < 2550000)).mpr
    (by omega : 9 * (2126 * r + 7152 * g + 722 * b) < 10 * 2550000)
  omega

/-- The classifier is total on the uint8 domain: the ramp index never
leaves `[0, 9]`. -/
lemma classify_isSome (r g b : ℕ) (hr : r ≤ 255) (hg : g ≤ 255) (hb : b ≤ 255) :
    ∃ ch cl, get_ascii_char_and_color (r, g, b) = some (ch, cl) := by
  have h9 := glyphIndex_le_nine r g b hr hg hb
  have hlt : glyphIndex r g b < ascii_chars.length := by
    rw [ascii_chars_length]; omega
  refine ⟨ascii_chars.get ⟨_, hlt⟩, color_of r g b, ?_⟩
  unfold get_ascii_char_and_color
  rw [List.get?_eq_get hlt]
  rfl

/-! ## Decoder lemmas -/

lemma chunksOf_nil (k : ℕ) : chunksOf k ([] : List α) = [] := by
  rw [chunksOf]; simp

lemma chunksOf_cons (k : ℕ) (hk : k ≠ 0) (l : List α) (hl : l ≠ []) :
    chunksOf k l = l.take k :: chunksOf k (l.drop k) := by
  rw [chunksOf]
  simp [hk, List.isEmpty_iff, hl]

lemma chunksOf_getD (k : ℕ) (hk : k ≠ 0) (i : ℕ) :
    ∀ (l : List α), (chunksOf k l).getD i [] = (l.drop (i * k)).take k := by
  induction i with
  | zero =>
    intro l
    by_cases hl : l = []
    · simp [hl, chunksOf_nil]
    · rw [chunksOf_cons k hk l hl]; simp
  | succ i ih =>
    intro l
    by_cases hl : l = []
    · simp [hl, chunksOf_nil]
    · rw [chunksOf_cons k hk l hl]
      have : ((l.take k :: chunksOf k (l.drop k)).getD (i + 1) []) =
          (chunksOf k (l.drop k)).getD i [] := rfl
      rw [this, ih (l.drop k), List.drop_drop]
      congr 2
      ring

lemma chunksOf_length (k : ℕ) (hk : k ≠ 0) :
    ∀ (m : ℕ) (l : List α), l.length = m * k → (chunksOf k l).length = m := by
  intro m
  induction m with
  | zero =>
    intro l hl
    have : l = [] := List.length_eq_zero.mp (by omega)
    simp [this, chunksOf_nil]
  | succ m ih =>
    intro l hl
    have hne : l ≠ [] := by
      intro h; rw [h] at hl; simp at hl; omega
    rw [chunksOf_cons k hk l hne]
    have hdrop : (l.drop k).length = m * k := by
      simp only [List.length_drop, hl]
      have hmul : (m + 1) * k = m * k + k := by ring
      omega
    simp [ih (l.drop k) hdrop]

lemma chunksOf_row_length (k : ℕ) (hk : k ≠ 0) :
    ∀ (m : ℕ) (l : List α), l.length = m * k → ∀ c ∈ chunksOf k l, c.length = k := by
  intro m
  induction m with
  | zero =>
    intro l hl c hc
    have : l = [] := List.length_eq_zero.mp (by omega)
    rw [this, chunksOf_nil] at hc
    exact absurd hc (List.not_mem_nil c)
  | succ m ih =>
    intro l hl c hc
    have hne : l ≠ [] := by
      intro h; rw [h] at hl; simp at hl; omega
    rw [chunksOf_cons k hk l hne] at hc
    have hmul : (m + 1) * k = m * k + k := by ring
    have hklen : k ≤ l.length := by omega
    rcases List.mem_cons.mp hc with h | h
    · rw [h, List.length_take]; omega
    · refine ih (l.drop k) ?_ c h
      simp only [List.length_drop, hl]
      omega

lemma chunksOf_subset (k : ℕ) :
    ∀ (n : ℕ) (l : List α), l.length ≤ n → ∀ c ∈ chunksOf k l, ∀ x ∈ c, x ∈ l := by
  intro n
  induction n with
  | zero =>
    intro l hl c hc
    have : l = [] := List.length_eq_zero.mp (by omega)
    rw [this, chunksOf_nil] at hc
    exact absurd hc (List.not_mem_nil c)
  | succ n ih =>
    intro l hl c hc x hx
    by_cases hk : k = 0
    · rw [chunksOf, if_pos (Or.inr hk)] at hc
      exact absurd hc (List.not_mem_nil c)
    by_cases hl0 : l = []
    · rw [hl0, chunksOf_nil] at hc
      exact absurd hc (List.not_mem_nil c)
    rw [chunksOf_cons k hk l hl0] at hc
    rcases List.mem_cons.mp hc with h | h
    · exact List.take_subset k l (h ▸ hx)
    · have hlen : (l.drop k).length ≤ n := by
        simp only [List.length_drop]
        have : l.length ≠ 0 := fun h0 => hl0 (List.length_eq_zero.mp h0)
        omega
      exact List.drop_subset k l (ih (l.drop k) hlen c h x hx)

lemma getD_lt_256 (l : List ℕ) (h : ∀ x ∈ l, x < 256) :
    ∀ (i : ℕ), l.getD i 0 < 256 := by
  induction l with
  | nil => intro i; simp [List.getD]
  | cons a t ih =>
    intro i
    cases i with
    | zero => simpa using h a (by simp)
    | succ j =>
      have : (a :: t).getD (j + 1) 0 = t.getD j 0 := rfl
      rw [this]
      exact ih (fun x hx => h x (by simp [hx])) j

lemma toPixel_le (c : List ℕ) (h : ∀ x ∈ c, x < 256) :
    (toPixel c).1 ≤ 255 ∧ (toPixel c).2.1 ≤ 255 ∧ (toPixel c).2.2 ≤ 255 := by
  have h0 := getD_lt_256 c h 0
  have h1 := getD_lt_256 c h 1
  have h2 := getD_lt_256 c h 2
  unfold toPixel
  dsimp only
  exact ⟨by omega, by omega, by omega⟩

/-- Every pixel of a successfully decoded buffer of sub-256 bytes has
all channels in the uint8 range. -/
lemma decode_pixels_le (g : Geometry) (buf : List ℕ) (grid : List (List (ℕ × ℕ × ℕ)))
    (hb : ∀ x ∈ buf, x < 256) (hdec : decode g buf = Except.ok grid) :
    ∀ row ∈ grid, ∀ p ∈ row, p.1 ≤ 255 ∧ p.2.1 ≤ 255 ∧ p.2.2 ≤ 255 := by
  intro row hrow p hp
  unfold decode at hdec
  by_cases hlen : buf.length = frame_byte_size g
  · rw [if_pos hlen] at hdec
    have hgrid' : grid = chunksOf g.width ((chunksOf 3 buf).map toPixel) := by
      cases hdec; rfl
    have hmem : p ∈ (chunksOf 3 buf).map toPixel := by
      refine chunksOf_subset g.width _ _ le_rfl row ?_ p hp
      rw [← hgrid']; exact hrow
    obtain ⟨c, hc, hcp⟩ := List.mem_map.mp hmem
    have hcsub : ∀ x ∈ c, x ∈ buf :=
      chunksOf_subset 3 _ _ le_rfl c hc
    exact hcp ▸ toPixel_le c (fun x hx => hb x (hcsub x hx))
  · rw [if_neg hlen] at hdec
    cases hdec

lemma convertRow_total (row : List (ℕ × ℕ × ℕ))
    (h : ∀ p ∈ row, p.1 ≤ 255 ∧ p.2.1 ≤ 255 ∧ p.2.2 ≤ 255) :
    ∃ r, convertRow row = some r := by
  induction row with
  | nil => exact ⟨[], rfl⟩
  | cons p ps ih =>
    obtain ⟨p1, p2, p3⟩ := p
    obtain ⟨h1, h2, h3⟩ := h (p1, p2, p3) (by simp)
    obtain ⟨ch, cl, hcc⟩ := classify_isSome p1 p2 p3 h1 h2 h3
    obtain ⟨r, hr⟩ := ih (fun q hq => h q (by simp [hq]))
    refine ⟨(ch, cl) :: r, ?_⟩
    show convertRow ((p1, p2, p3) :: ps) = some ((ch, cl) :: r)
    rw [convertRow, hcc, hr]
    rfl

/-- Conversion succeeds on every grid of uint8 pixels. -/
lemma convert_total (grid : List (List (ℕ × ℕ × ℕ)))
    (h : ∀ row ∈ grid, ∀ p ∈ row, p.1 ≤ 255 ∧ p.2.1 ≤ 255 ∧ p.2.2 ≤ 255) :
    ∃ fr, convert grid = some fr := by
  induction grid with
  | nil => exact ⟨[], rfl⟩
  | cons row rows ih =>
    obtain ⟨r, hr⟩ := convertRow_total row (h row (by simp))
    obtain ⟨rs, hrs⟩ := ih (fun q hq => h q (by simp [hq]))
    refine ⟨r :: rs, ?_⟩
    show convert (row :: rows) = some (r :: rs)
    rw [convert, hr, hrs]
    rfl

lemma getD_take (l : List α) (n i : ℕ) (h : i < n) (d : α) :
    (l.take n).getD i d = l.getD i d := by
  rw [List.getD_eq_getElem?_getD, List.getD_eq_getElem?_getD, List.getElem?_take_of_lt h]

lemma getD_drop (l : List α) (n i : ℕ) (d : α) :
    (l.drop n).getD i d = l.getD (n + i) d := by
  rw [List.getD_eq_getElem?_getD, List.getD_eq_getElem?_getD, List.getElem?_drop]

lemma getD_map_toPixel (l : List (List ℕ)) (i : ℕ) :
    (l.map toPixel).getD i (0, 0, 0) = toPixel (l.getD i []) := by
  rw [List.getD_eq_getElem?_getD, List.getD_eq_getElem?_getD, List.getElem?_map]
  cases l[i]? with
  | none => rfl
  | some c => rfl

/-- Successful decoding reads pixel `(x, y)` from the 3 bytes starting
at offset `(y*width + x)*3`, row-major. -/
lemma decode_ok_pixel (g : Geometry) (buf : List ℕ) (grid : List (List (ℕ × ℕ × ℕ)))
    (hdec : decode g buf = Except.ok grid) (x y : ℕ) (hx : x < g.width) :
    (grid.getD y []).getD x (0, 0, 0) =
      (buf.getD ((y * g.width + x) * 3) 0,
       buf.getD ((y * g.width + x) * 3 + 1) 0,
       buf.getD ((y * g.width + x) * 3 + 2) 0) := by
  have hw : g.width ≠ 0 := by omega
  unfold decode at hdec
  by_cases hlen : buf.length = frame_byte_size g
  · rw [if_pos hlen] at hdec
    have hgrid : grid = chunksOf g.width ((chunksOf 3 buf).map toPixel) := by
      cases hdec; rfl
    subst hgrid
    rw [chunksOf_getD g.width hw y]
    have hxw : (((((chunksOf 3 buf).map toPixel).drop (y * g.width)).take g.width)).getD x (0,0,0)
        = (((chunksOf 3 buf).map toPixel).drop (y * g.width)).getD x (0,0,0) :=
      getD_take _ _ _ hx _
    rw [hxw, getD_drop, getD_map_toPixel, chunksOf_getD 3 (by omega) (y * g.width + x)]
    unfold toPixel
    rw [getD_take (buf.drop ((y * g.width + x) * 3)) 3 0 (by norm_num) 0,
        getD_take (buf.drop ((y * g.width + x) * 3)) 3 1 (by norm_num) 0,
        getD_take (buf.drop ((y * g.width + x) * 3)) 3 2 (by norm_num) 0,
        getD_drop, getD_drop, getD_drop]
    norm_num
  · rw [if_neg hlen] at hdec
    cases hdec

/-- Successful decoding yields a `height × width` grid. -/
lemma decode_ok_shape (g : Geometry) (buf : List ℕ) (grid : List (List (ℕ × ℕ × ℕ)))
    (hdec : decode g buf = Except.ok grid) (hw : g.width ≠ 0) :
    grid.length = g.height ∧ ∀ row ∈ grid, row.length = g.width := by
  unfold decode at hdec
  by_cases hlen : buf.length = frame_byte_size g
  · rw [if_pos hlen] at hdec
    have hgrid : grid = chunksOf g.width ((chunksOf 3 buf).map toPixel) := by
      cases hdec; rfl
    subst hgrid
    have hpix : ((chunksOf 3 buf).map toPixel).length = g.height * g.width := by
      rw [List.length_map]
      refine chunksOf_length 3 (by omega) (g.width * g.height) buf ?_ |>.trans (by ring)
      rw [hlen]; unfold frame_byte_size; ring
    exact ⟨chunksOf_length g.width hw g.height _ hpix,
           chunksOf_row_length g.width hw g.height _ hpix⟩
  · rw [if_neg hlen] at hdec
    cases hdec

/-! ## Pump lemmas -/

lemma step_malformed (g : Geometry) (c : List ℕ) (hlen : c.length ≠ frame_byte_size g) :
    step g c = Except.error PumpError.malformedFrame := by
  unfold step decode
  rw [if_neg hlen]
  rfl

lemma step_ok (g : Geometry) (c : List ℕ) (hlen : c.length = frame_byte_size g)
    (hb : ∀ x ∈ c, x < 256) :
    ∃ f, step g c = Except.ok f ∧ decodeConvert g c = some f := by
  have hdec : decode g c = Except.ok (chunksOf g.width ((chunksOf 3 c).map toPixel)) := by
    unfold decode; rw [if_pos hlen]
  obtain ⟨f, hf⟩ := convert_total _ (decode_pixels_le g c _ hb hdec)
  refine ⟨f, ?_, ?_⟩
  · unfold step
    rw [hdec]
    show (convert _).elim _ _ = _
    rw [hf]
    rfl
  · unfold decodeConvert
    rw [hdec]
    exact hf

lemma pump_nil (g : Geometry) : pump g [] = ([Ev.read []], Outcome.drained) := rfl

lemma pump_cons_empty (g : Geometry) (rest : List (List ℕ)) :
    pump g ([] :: rest) = ([Ev.read []], Outcome.drained) := rfl

lemma pump_cons_err (g : Geometry) (c : List ℕ) (rest : List (List ℕ)) (e : PumpError)
    (hc : c ≠ []) (he : step g c = Except.error e) :
    pump g (c :: rest) = ([Ev.read c], Outcome.failed e) := by
  rw [pump, if_neg hc, he]

lemma pump_cons_ok (g : Geometry) (c : List ℕ) (rest : List (List ℕ)) (f : Frame)
    (hc : c ≠ []) (hf : step g c = Except.ok f) :
    pump g (c :: rest) =
      (Ev.read c :: Ev.deliver f :: (pump g rest).1, (pump g rest).2) := by
  rw [pump, if_neg hc, hf]

lemma readsIn_read (c : List ℕ) (evs : List Ev) :
    readsIn (Ev.read c :: evs) = readsIn evs + 1 := rfl

lemma readsIn_deliver (f : Frame) (evs : List Ev) :
    readsIn (Ev.deliver f :: evs) = readsIn evs := rfl

lemma deliveriesIn_read (c : List ℕ) (evs : List Ev) :
    deliveriesIn (Ev.read c :: evs) = deliveriesIn evs := rfl

lemma deliveriesIn_deliver (f : Frame) (evs : List Ev) :
    deliveriesIn (Ev.deliver f :: evs) = deliveriesIn evs + 1 := rfl

/-- The run over `fulls ++ tail`, where every chunk of `fulls` is an
exact-size chunk of bytes, continues into the run over `tail`,
delivering one frame per full chunk on the way. -/
lemma pump_fulls (g : Geometry) (fulls tail : List (List ℕ))
    (hfull : ∀ c ∈ fulls, c.length = frame_byte_size g ∧ ∀ b ∈ c, b < 256)
    (hpos : 0 < frame_byte_size g) :
    (pump g (fulls ++ tail)).2 = (pump g tail).2 ∧
    deliveriesIn (pump g (fulls ++ tail)).1 =
      fulls.length + deliveriesIn (pump g tail).1 := by
  induction fulls with
  | nil => simp
  | cons c fulls' ih =>
    obtain ⟨hlen, hb⟩ := hfull c (by simp)
    have hc : c ≠ [] := by
      intro h
      rw [h] at hlen
      simp at hlen
      omega
    obtain ⟨f, hstep, _⟩ := step_ok g c hlen hb
    have hcons : (c :: fulls') ++ tail = c :: (fulls' ++ tail) := rfl
    rw [hcons, pump_cons_ok g c _ f hc hstep]
    obtain ⟨ih1, ih2⟩ := ih (fun d hd => hfull d (by simp [hd]))
    refine ⟨ih1, ?_⟩
    rw [deliveriesIn_read, deliveriesIn_deliver, ih2]
    simp only [List.length_cons]
    omega

/-- Counts over the trace of a run that produced a single `read` event. -/
lemma counts_single_read (c : List ℕ) (n : ℕ) :
    deliveriesIn ([Ev.read c].take n) ≤ readsIn ([Ev.read c].take n) ∧
    readsIn ([Ev.read c].take n) ≤ deliveriesIn ([Ev.read c].take n) + 1 := by
  cases n with
  | zero => exact ⟨le_refl 0, by norm_num [readsIn, deliveriesIn]⟩
  | succ m =>
    have h : [Ev.read c].take (m + 1) = [Ev.read c] := by simp
    rw [h]
    exact ⟨by norm_num [readsIn, deliveriesIn], by norm_num [readsIn, deliveriesIn]⟩

/-- The central single-producer/single-consumer invariant: in every
slice of a pump trace the deliveries never outnumber the reads, and the
reads never get more than one chunk ahead of the deliveries.  Hence at
every point of the run at most one frame is in flight, and the `N`-th
frame is delivered before the `(N+1)`-st chunk is read. -/
lemma pump_counts (g : Geometry) (chunks : List (List ℕ)) :
    ∀ n : ℕ,
      deliveriesIn ((pump g chunks).1.take n) ≤ readsIn ((pump g chunks).1.take n) ∧
      readsIn ((pump g chunks).1.take n) ≤ deliveriesIn ((pump g chunks).1.take n) + 1 := by
  induction chunks with
  | nil => intro n; rw [pump_nil]; exact counts_single_read [] n
  | cons c rest ih =>
    intro n
    by_cases hc : c = []
    · subst hc; rw [pump_cons_empty]; exact counts_single_read [] n
    · cases hstep : step g c with
      | error e => rw [pump_cons_err g c rest e hc hstep]; exact counts_single_read c n
      | ok f =>
        rw [pump_cons_ok g c rest f hc hstep]
        match n with
        | 0 => exact ⟨le_refl 0, by norm_num [readsIn, deliveriesIn]⟩
        | 1 =>
          refine ⟨?_, ?_⟩ <;>
            · rw [List.take_succ_cons, List.take_zero, readsIn_read,
                deliveriesIn_read]
              norm_num [readsIn, deliveriesIn]
        | (m + 2) =>
          obtain ⟨ih1, ih2⟩ := ih m
          rw [List.take_succ_cons, List.take_succ_cons, readsIn_read,
            readsIn_deliver, deliveriesIn_read, deliveriesIn_deliver]
          omega

lemma color_of_spec (r g b : ℕ) :
    ((color_of r g b).testBit 0 ↔ 128 < r) ∧ ((color_of r g b).testBit 1 ↔ 128 < g) ∧
    ((color_of r g b).testBit 2 ↔ 128 < b) ∧ color_of r g b ≤ 7 := by
  unfold color_of
  by_cases h1 : 128 < r <;> by_cases h2 : 128 < g <;> by_cases h3 : 128 < b <;>
    simp [h1, h2, h3] <;> decide

set_option maxRecDepth 8000 in
/-- In binary64 the white pixel's intensity rounds to
254.99999999999997, and the glyph index truncates to 8, not 9. -/
lemma fpWhite_eq_eight : glyphIndexFP 255 255 255 = 8 := by decide

set_option maxRecDepth 8000 in
/-- In binary64 the near-black pixel (10,10,10) gets glyph index 0. -/
lemma fpTen_eq_zero : glyphIndexFP 10 10 10 = 0 := by decide

/-! ## The claims -/

/-- C1.  For every pixel the color class is the 3-bit mask with bit 0
set iff `r > 128`, bit 1 iff `g > 128`, bit 2 iff `b > 128` (strict
comparisons, so 128 itself sets no bit); the class always lies in
`[0, 7]`, and the all-128 pixel gets class 0. -/
theorem spec_C1 (r g b : ℕ) (ch : Char) (cl : ℕ)
    (h : get_ascii_char_and_color (r, g, b) = some (ch, cl)) :
    (cl.testBit 0 ↔ 128 < r) ∧ (cl.testBit 1 ↔ 128 < g) ∧ (cl.testBit 2 ↔ 128 < b) ∧
    cl ≤ 7 ∧ color_of 128 128 128 = 0 := by
  obtain ⟨a, _, heq⟩ := Option.map_eq_some'.mp h
  have hcl : cl = color_of r g b := (congrArg Prod.snd heq).symm
  subst hcl
  obtain ⟨b0, b1, b2, b7⟩ := color_of_spec r g b
  exact ⟨b0, b1, b2, b7, rfl⟩

/-- Witness for C1 at the boundary pixel (128, 128, 128), whose cell is
`('=', 0)`. -/
theorem spec_C1_witness :
    ((0 : ℕ).testBit 0 ↔ 128 < 128) ∧ ((0 : ℕ).testBit 1 ↔ 128 < 128) ∧
    ((0 : ℕ).testBit 2 ↔ 128 < 128) ∧ (0 : ℕ) ≤ 7 ∧ color_of 128 128 128 = 0 :=
  spec_C1 128 128 128 '=' 0 (by
    unfold get_ascii_char_and_color
    rw [show glyphIndex 128 128 128 = 4 from by rw [glyphIndex_eq]]
    rfl)

/-- C2.  The luminance formula and ramp-index formula of the spec hold
in exact arithmetic — `(10,10,10)` gets the lowest index 0 and
`(255,255,255)` exact luminance 255 and the highest index 9 — but the
code evaluates the same expression in binary64, where `(255,255,255)`
yields intensity 254.99999999999997 and therefore glyph index 8, not
the highest index: the code diverges from the spec at pure white. -/
theorem spec_C2_float_divergence :
    glyphIndex 255 255 255 = 9 ∧ glyphIndex 10 10 10 = 0 ∧
    intensity 255 255 255 = 255 ∧
    glyphIndexFP 255 255 255 = 8 ∧ glyphIndexFP 10 10 10 = 0 := by
  refine ⟨by rw [glyphIndex_eq], by rw [glyphIndex_eq], ?_, ?_, ?_⟩
  · norm_num [intensity]
  · exact fpWhite_eq_eight
  · exact fpTen_eq_zero

/-- C3.  A byte source that closes after a final chunk that is
non-empty but shorter than `frame_byte_size` drives the run into
`Failed(MalformedFrame)`, not `Drained`, and no frame is delivered for
the short chunk. -/
theorem spec_C3 (g : Geometry) (fulls : List (List ℕ)) (short : List ℕ)
    (hfull : ∀ c ∈ fulls, c.length = frame_byte_size g ∧ ∀ b ∈ c, b < 256)
    (hne : short ≠ []) (hshort : short.length < frame_byte_size g) :
    (pump g (fulls ++ [short])).2 = Outcome.failed PumpError.malformedFrame ∧
    deliveriesIn (pump g (fulls ++ [short])).1 = fulls.length := by
  have hpos : 0 < frame_byte_size g := by omega
  obtain ⟨h1, h2⟩ := pump_fulls g fulls [short] hfull hpos
  have hfail : pump g [short] = ([Ev.read short], Outcome.failed PumpError.malformedFrame) :=
    pump_cons_err g short [] _ hne (step_malformed g short (by omega))
  constructor
  · rw [h1, hfail]
  · rw [h2, hfail]
    simp [deliveriesIn]

/-- Witness for C3: one full 1×1 frame followed by a 1-byte runt chunk. -/
theorem spec_C3_witness :
    (pump ⟨1, 1⟩ [[0, 0, 0], [5]]).2 = Outcome.failed PumpError.malformedFrame ∧
    deliveriesIn (pump ⟨1, 1⟩ [[0, 0, 0], [5]]).1 = 1 := by
  have h := spec_C3 ⟨1, 1⟩ [[0, 0, 0]] [5] (by decide) (by decide) (by decide)
  exact h

/-- C4, counterexample.  A read that returns 1 byte (fewer than the
3 requested) with the source then at end-of-stream does not drain: the
run fails with `malformedFrame`, refuting the claim that any short read
at end-of-stream terminates in `Drained`. -/
theorem spec_C4_counterexample :
    pump ⟨1, 1⟩ [[7]] = ([Ev.read [7]], Outcome.failed PumpError.malformedFrame) ∧
    (pump ⟨1, 1⟩ [[7]]).2 ≠ Outcome.drained := by decide

/-- C4 as amended.  Only the zero-byte read at end-of-stream terminates
the loop normally in `Drained` (`if not raw_frame: break`); a non-empty
short read is decoded and fails. -/
theorem spec_C4_amended (g : Geometry) (rest : List (List ℕ)) :
    (pump g []).2 = Outcome.drained ∧ (pump g ([] :: rest)).2 = Outcome.drained :=
  ⟨rfl, rfl⟩

/-- C5.  `decode` fails with `malformedFrame` exactly when the buffer
length differs from `width*height*3`; on the exact length it yields the
row-major `height × width` grid in which pixel `(x, y)` is the RGB
triple at byte offsets `[(y*width+x)*3, (y*width+x)*3+3)`. -/
theorem spec_C5 (g : Geometry) (buf : List ℕ) :
    (buf.length ≠ frame_byte_size g → decode g buf = Except.error PumpError.malformedFrame) ∧
    (buf.length = frame_byte_size g →
      ∃ grid, decode g buf = Except.ok grid ∧
        (g.width ≠ 0 → grid.length = g.height ∧ ∀ row ∈ grid, row.length = g.width) ∧
        ∀ x y : ℕ, x < g.width → y < g.height →
          (grid.getD y []).getD x (0, 0, 0) =
            (buf.getD ((y * g.width + x) * 3) 0,
             buf.getD ((y * g.width + x) * 3 + 1) 0,
             buf.getD ((y * g.width + x) * 3 + 2) 0)) := by
  constructor
  · intro hne
    unfold decode
    rw [if_neg hne]
  · intro heq
    have hdec : decode g buf = Except.ok (chunksOf g.width ((chunksOf 3 buf).map toPixel)) := by
      unfold decode
      rw [if_pos heq]
    refine ⟨_, hdec, fun hw => decode_ok_shape g buf _ hdec hw, ?_⟩
    intro x y hx _
    exact decode_ok_pixel g buf _ hdec x y hx

/-- Witness for C5: a 2-byte buffer is rejected for 2×1 geometry, and a
6-byte buffer decodes. -/
theorem spec_C5_witness :
    decode ⟨2, 1⟩ [9, 9] = Except.error PumpError.malformedFrame ∧
    ∃ grid, decode ⟨2, 1⟩ [1, 2, 3, 4, 5, 6] = Except.ok grid := by
  refine ⟨(spec_C5 ⟨2, 1⟩ [9, 9]).1 (by decide), ?_⟩
  obtain ⟨grid, hg, -, -⟩ := (spec_C5 ⟨2, 1⟩ [1, 2, 3, 4, 5, 6]).2 (by decide)
  exact ⟨grid, hg⟩

/-- C6.  Three full frames followed by end-of-stream produce exactly
three sink deliveries, in source order, each frame the elementwise
classification of its decoded chunk, and the run ends `Drained`. -/
theorem spec_C6 (g : Geometry) (c1 c2 c3 : List ℕ)
    (h1 : c1.length = frame_byte_size g) (h2 : c2.length = frame_byte_size g)
    (h3 : c3.length = frame_byte_size g)
    (hb1 : ∀ x ∈ c1, x < 256) (hb2 : ∀ x ∈ c2, x < 256) (hb3 : ∀ x ∈ c3, x < 256)
    (hpos : 0 < frame_byte_size g) :
    ∃ f1 f2 f3 : Frame,
      decodeConvert g c1 = some f1 ∧ decodeConvert g c2 = some f2 ∧
      decodeConvert g c3 = some f3 ∧
      pump g [c1, c2, c3] =
        ([Ev.read c1, Ev.deliver f1, Ev.read c2, Ev.deliver f2,
          Ev.read c3, Ev.deliver f3, Ev.read []], Outcome.drained) := by
  have hc1 : c1 ≠ [] := by intro h; rw [h] at h1; simp at h1; omega
  have hc2 : c2 ≠ [] := by intro h; rw [h] at h2; simp at h2; omega
  have hc3 : c3 ≠ [] := by intro h; rw [h] at h3; simp at h3; omega
  obtain ⟨f1, hs1, hd1⟩ := step_ok g c1 h1 hb1
  obtain ⟨f2, hs2, hd2⟩ := step_ok g c2 h2 hb2
  obtain ⟨f3, hs3, hd3⟩ := step_ok g c3 h3 hb3
  refine ⟨f1, f2, f3, hd1, hd2, hd3, ?_⟩
  rw [pump_cons_ok g c1 [c2, c3] f1 hc1 hs1, pump_cons_ok g c2 [c3] f2 hc2 hs2,
      pump_cons_ok g c3 [] f3 hc3 hs3, pump_nil]

/-- Witness for C6 with three concrete 1×1 frames. -/
theorem spec_C6_witness :
    ∃ f1 f2 f3 : Frame,
      decodeConvert ⟨1, 1⟩ [2, 2, 2] = some f1 ∧
      decodeConvert ⟨1, 1⟩ [7, 7, 7] = some f2 ∧
      decodeConvert ⟨1, 1⟩ [9, 9, 9] = some f3 ∧
      pump ⟨1, 1⟩ [[2, 2, 2], [7, 7, 7], [9, 9, 9]] =
        ([Ev.read [2, 2, 2], Ev.deliver f1, Ev.read [7, 7, 7], Ev.deliver f2,
          Ev.read [9, 9, 9], Ev.deliver f3, Ev.read []], Outcome.drained) :=
  spec_C6 ⟨1, 1⟩ [2, 2, 2] [7, 7, 7] [9, 9, 9] (by decide) (by decide) (by decide)
    (by decide) (by decide) (by decide) (by decide)

/-- C7.  The glyph quantizer of line 114 is monotone non-decreasing in
the luminance over `[0, 255]`. -/
theorem spec_C7 (L1 L2 : ℚ) (h0 : 0 ≤ L1) (h12 : L1 < L2) (h255 : L2 ≤ 255) :
    lumToGlyph L1 ≤ lumToGlyph L2 := by
  unfold lumToGlyph
  rw [ratFloor_eq_intFloor, ratFloor_eq_intFloor]
  apply Int.floor_le_floor
  have hlen : ((ascii_chars.length : ℚ) - 1) = 9 := by norm_num [ascii_chars]
  rw [hlen]
  have hdiv : L1 / 255 ≤ L2 / 255 :=
    (div_le_div_right (by norm_num : (0 : ℚ) < 255)).mpr h12.le
  exact mul_le_mul_of_nonneg_right hdiv (by norm_num)

/-- Witness for C7 at the extreme luminances 0 and 255. -/
theorem spec_C7_witness : lumToGlyph 0 ≤ lumToGlyph 255 :=
  spec_C7 0 255 le_rfl (by norm_num) le_rfl

/-- C8.  Single-producer/single-consumer discipline: in every slice of
every pump trace, deliveries never outnumber reads (no frame is
delivered before its bytes are read) and reads exceed deliveries by at
most one (frame N is delivered before frame N+1's chunk is read; at
most one frame is in flight, with no queue and no dropping). -/
theorem spec_C8 (g : Geometry) (chunks : List (List ℕ)) (n : ℕ) :
    deliveriesIn ((pump g chunks).1.take n) ≤ readsIn ((pump g chunks).1.take n) ∧
    readsIn ((pump g chunks).1.take n) ≤ deliveriesIn ((pump g chunks).1.take n) + 1 :=
  pump_counts g chunks n

/-- C9.  The ramp index is safe without an explicit clamp: on every
uint8 triple the exact index lies in `[0, 9]`, within the 10-character
ramp, so the classifier is total. -/
theorem spec_C9 (r g b : ℕ) (hr : r ≤ 255) (hg : g ≤ 255) (hb : b ≤ 255) :
    glyphIndex r g b ≤ 9 ∧ glyphIndex r g b < ascii_chars.length ∧
    ∃ ch cl, get_ascii_char_and_color (r, g, b) = some (ch, cl) := by
  have h9 := glyphIndex_le_nine r g b hr hg hb
  exact ⟨h9, by rw [ascii_chars_length]; omega, classify_isSome r g b hr hg hb⟩

/-- Witness for C9 at (200, 100, 50). -/
theorem spec_C9_witness :
    glyphIndex 200 100 50 ≤ 9 ∧ glyphIndex 200 100 50 < ascii_chars.length ∧
    ∃ ch cl, get_ascii_char_and_color (200, 100, 50) = some (ch, cl) :=
  spec_C9 200 100 50 (by norm_num) (by norm_num) (by norm_num)

/-- C10.  In exact arithmetic the top bucket is degenerate as claimed:
index 9 is reached exactly at (255, 255, 255).  But the code computes
in binary64, where (255, 255, 255) yields index 8 — the code never
reaches the densest glyph at all, contradicting the claim at its only
claimed witness point. -/
theorem spec_C10 (r g b : ℕ) (hr : r ≤ 255) (hg : g ≤ 255) (hb : b ≤ 255) :
    (glyphIndex r g b = 9 ↔ r = 255 ∧ g = 255 ∧ b = 255) ∧
    glyphIndexFP 255 255 255 = 8 := by
  refine ⟨?_, fpWhite_eq_eight⟩
  rw [glyphIndex_eq]
  constructor
  · intro h
    by_contra hC
    push_neg at hC
    have hn : 2126 * r + 7152 * g + 722 * b < 2550000 := by
      by_cases hr' : r = 255
      · by_cases hg' : g = 255
        · have hb' : b ≠ 255 := hC hr' hg'
          omega
        · omega
      · omega
    have hlt : 9 * (2126 * r + 7152 * g + 722 * b) / 2550000 < 9 :=
      (Nat.div_lt_iff_lt_mul (by norm_num)).mpr (by omega)
    omega
  · rintro ⟨rfl, rfl, rfl⟩
    decide

/-- Witness for C10 at the white pixel itself. -/
theorem spec_C10_witness :
    (glyphIndex 255 255 255 = 9 ↔ 255 = 255 ∧ 255 = 255 ∧ 255 = 255) ∧
    glyphIndexFP 255 255 255 = 8 :=
  spec_C10 255 255 255 le_rfl le_rfl le_rfl

end Xorgontui
